import Mathlib

/- Verification development for the freqgen system: a frequency-profiling
   engine plus a synonymous-codon genetic-algorithm optimizer, fronted by
   the command-line file src/cli.py.  Sequences are modelled as lists of
   characters and frequencies as rational numbers; the core library
   operations (frequency profiler, profile distance, optimizer loop) are
   modelled from the specification, while the command-line glue is
   embedded directly from src/cli.py. -/

namespace Freqgen

/-- The DNA alphabet, in the order A, C, G, T. -/
def dnaAlphabet : List Char := ['A', 'C', 'G', 'T']

/-- Modelled from the spec: the enumeration of every one of
alphabet_size ^ k possible k-mers over the DNA alphabet, used by the
`include_missing` behavior of the frequency profiler (the profiler itself
is in the core library, not in src/cli.py). -/
def allKmers : Nat → List (List Char)
  | 0 => [[]]
  | k + 1 => dnaAlphabet.flatMap (fun c => (allKmers k).map (fun w => c :: w))

/-- Modelled from the spec: every overlapping window of length k of one
sequence; windows never cross sequence boundaries because each sequence
is windowed independently. -/
def kmerWindows (k : Nat) (s : List Char) : List (List Char) :=
  (List.range (s.length + 1 - k)).map (fun i => (s.drop i).take k)

/-- Modelled from the spec: `kMerFrequencies(sequences, k, includeMissing)`
counts every overlapping window of length k across each sequence
independently, normalizes by the total window count, and, when
`includeMissing` is set, enumerates all 4 ^ k k-mers, assigning 0.0 to
unobserved ones; it fails with `InvalidKError` when k exceeds some input
sequence's length. -/
def k_mer_frequencies (seqs : List (List Char)) (k : Nat)
    (include_missing : Bool) : Except String (List (List Char × ℚ)) :=
  if seqs.any (fun s => s.length < k) then .error "InvalidKError"
  else
    let ws := (seqs.map (kmerWindows k)).flatten
    let keys := if include_missing then allKmers k else ws.dedup
    .ok (keys.map (fun w => (w, ((ws.count w : ℚ) / (ws.length : ℚ)))))

/-- Modelled from the spec: partition a sequence into consecutive
non-overlapping triplets starting at position 0 (reading frame fixed);
a trailing fragment shorter than 3 is never produced because callers
check divisibility by 3 first. -/
def triplets : List Char → List (List Char)
  | a :: b :: c :: rest => [a, b, c] :: triplets rest
  | _ => []

/-- Modelled from the spec: `codonFrequencies(sequence)` partitions the
sequence into its triplets, counts each of the 64 possible triplets, and
normalizes by the triplet count; it fails with `FrameError` when the
sequence length is not divisible by 3. -/
def codon_frequencies (s : List Char) : Except String (List (List Char × ℚ)) :=
  if s.length % 3 ≠ 0 then .error "FrameError"
  else
    let ts := triplets s
    .ok ((allKmers 3).map (fun w => (w, ((ts.count w : ℚ) / (ts.length : ℚ)))))

theorem length_allKmers (k : Nat) : (allKmers k).length = 4 ^ k := by
  induction k with
  | zero => rfl
  | succ k ih =>
      simp [allKmers, List.length_flatMap, dnaAlphabet, ih, pow_succ]
      ring

theorem mem_allKmers (k : Nat) (w : List Char) :
    w ∈ allKmers k ↔ w.length = k ∧ ∀ c ∈ w, c ∈ dnaAlphabet := by
  induction k generalizing w with
  | zero =>
      simp [allKmers, List.length_eq_zero]
      rintro rfl
      simp
  | succ k ih =>
      constructor
      · intro hw
        simp only [allKmers, List.mem_flatMap, List.mem_map] at hw
        obtain ⟨c, hc, v, hv, rfl⟩ := hw
        obtain ⟨hlen, hmem⟩ := (ih v).mp hv
        refine ⟨by simp [hlen], ?_⟩
        intro d hd
        rcases List.mem_cons.mp hd with h | h
        · exact h ▸ hc
        · exact hmem d h
      · rintro ⟨hlen, hmem⟩
        cases w with
        | nil => simp at hlen
        | cons c v =>
            simp only [allKmers, List.mem_flatMap, List.mem_map]
            refine ⟨c, hmem c (by simp), v, ?_, rfl⟩
            refine (ih v).mpr ⟨by simpa using hlen, ?_⟩
            intro d hd
            exact hmem d (List.mem_cons_of_mem _ hd)

theorem nodup_allKmers (k : Nat) : (allKmers k).Nodup := by
  induction k with
  | zero => simp [allKmers]
  | succ k ih =>
      rw [allKmers, List.nodup_flatMap]
      constructor
      · intro c _
        exact ih.map (fun a b h => by injection h)
      · have hnd : dnaAlphabet.Nodup := by decide
        refine hnd.pairwise_of_forall_ne ?_
        intro c hc d hd hcd
        simp only [Function.onFun, List.disjoint_left, List.mem_map]
        rintro x ⟨v, _, rfl⟩ ⟨u, _, h⟩
        exact hcd (by injection h with h1 _; exact h1.symm)

theorem sum_map_ite_eq_one {α : Type} [DecidableEq α] (L : List α) (x : α)
    (hnd : L.Nodup) (hx : x ∈ L) :
    (L.map (fun w => if w = x then (1 : Nat) else 0)).sum = 1 := by
  induction L with
  | nil => simp at hx
  | cons a L ih =>
      rw [List.map_cons, List.sum_cons]
      by_cases hax : a = x
      · subst hax
        have hz : (L.map (fun w => if w = a then (1 : Nat) else 0)).sum = 0 := by
          apply List.sum_eq_zero
          intro y hy
          obtain ⟨w, hw, rfl⟩ := List.mem_map.mp hy
          have hwa : w ≠ a := by
            rintro rfl
            exact (List.nodup_cons.mp hnd).1 hw
          simp [hwa]
        rw [if_pos rfl, hz]
      · have hxL : x ∈ L := by
          rcases List.mem_cons.mp hx with h | h
          · exact absurd h.symm hax
          · exact h
        rw [if_neg hax, ih (List.nodup_cons.mp hnd).2 hxL, Nat.zero_add]

theorem sum_map_add_distrib {α : Type} (L : List α) (f g : α → Nat) :
    (L.map (fun w => f w + g w)).sum = (L.map f).sum + (L.map g).sum := by
  induction L with
  | nil => simp
  | cons a L ih =>
      simp only [List.map_cons, List.sum_cons, ih]
      ring

theorem sum_map_count (L : List (List Char)) (xs : List (List Char))
    (hnd : L.Nodup) (hsub : ∀ x ∈ xs, x ∈ L) :
    (L.map (fun w => xs.count w)).sum = xs.length := by
  induction xs with
  | nil => simp
  | cons x xs ih =>
      have hx : x ∈ L := hsub x (by simp)
      have hsub' : ∀ y ∈ xs, y ∈ L := fun y hy => hsub y (List.mem_cons_of_mem _ hy)
      have hcc : (L.map (fun w => (x :: xs).count w)).sum =
          (L.map (fun w => xs.count w + if w = x then 1 else 0)).sum := by
        congr 1
        apply List.map_congr_left
        intro w _
        by_cases hwx : w = x
        · subst hwx
          simp [List.count_cons]
        · simp [List.count_cons, hwx, Ne.symm hwx]
      rw [hcc, sum_map_add_distrib, ih hsub', sum_map_ite_eq_one L x hnd hx,
        List.length_cons]

theorem sum_map_count_rat (L : List (List Char)) (xs : List (List Char))
    (hnd : L.Nodup) (hsub : ∀ x ∈ xs, x ∈ L) :
    (L.map (fun w => (xs.count w : ℚ))).sum = (xs.length : ℚ) := by
  have h := sum_map_count L xs hnd hsub
  have : (L.map (fun w => (xs.count w : ℚ))).sum =
      (((L.map (fun w => xs.count w)).sum : Nat) : ℚ) := by
    rw [Nat.cast_list_sum, List.map_map]
    rfl
  rw [this, h]

theorem sum_map_div {α : Type} (L : List α) (f : α → ℚ) (N : ℚ) :
    (L.map (fun w => f w / N)).sum = (L.map f).sum / N := by
  induction L with
  | nil => simp
  | cons a L ih =>
      simp only [List.map_cons, List.sum_cons, ih]
      rw [add_div]

theorem kmerWindows_mem (k : Nat) (s : List Char) (w : List Char)
    (hw : w ∈ kmerWindows k s) : w.length = k ∧ ∀ c ∈ w, c ∈ s := by
  simp only [kmerWindows, List.mem_map, List.mem_range] at hw
  obtain ⟨i, hi, rfl⟩ := hw
  refine ⟨?_, ?_⟩
  · rw [List.length_take, List.length_drop]
    omega
  · intro c hc
    exact List.mem_of_mem_drop (List.mem_of_mem_take hc)

theorem length_kmerWindows (k : Nat) (s : List Char) :
    (kmerWindows k s).length = s.length + 1 - k := by
  simp [kmerWindows]

/-- C3: for every positive k and every non-empty set of DNA input
sequences each of length at least k, `k_mer_frequencies` called with
`include_missing` (as the featurize command does for every requested k)
returns a mapping with exactly 4 ^ k entries whose values sum to 1. -/
theorem C3_kmer_frequencies_complete (seqs : List (List Char)) (k : Nat)
    (_hk : 0 < k) (hne : seqs ≠ [])
    (hlen : ∀ s ∈ seqs, k ≤ s.length)
    (hdna : ∀ s ∈ seqs, ∀ c ∈ s, c ∈ dnaAlphabet) :
    ∃ r, k_mer_frequencies seqs k true = .ok r ∧
      r.length = 4 ^ k ∧ (r.map Prod.snd).sum = 1 := by
  have hguard : seqs.any (fun s => s.length < k) = false := by
    rw [List.any_eq_false]
    intro s hs
    simpa using hlen s hs
  rw [k_mer_frequencies, hguard]
  simp only [Bool.false_eq_true, if_false, if_true]
  refine ⟨_, rfl, ?_, ?_⟩
  · rw [List.length_map, length_allKmers]
  · set ws := (seqs.map (kmerWindows k)).flatten with hws
    have hsubw : ∀ w ∈ ws, w ∈ allKmers k := by
      intro w hw
      rw [hws, List.mem_flatten] at hw
      obtain ⟨l, hl, hwl⟩ := hw
      obtain ⟨s, hs, rfl⟩ := List.mem_map.mp hl
      obtain ⟨hwk, hchar⟩ := kmerWindows_mem k s w hwl
      exact (mem_allKmers k w).mpr ⟨hwk, fun c hc => hdna s hs c (hchar c hc)⟩
    have hN : ws.length ≠ 0 := by
      obtain ⟨s, seqs', rfl⟩ := List.exists_cons_of_ne_nil hne
      rw [hws]
      simp only [List.map_cons, List.flatten_cons, List.length_append,
        length_kmerWindows]
      have := hlen s (by simp)
      omega
    have hNQ : (ws.length : ℚ) ≠ 0 := Nat.cast_ne_zero.mpr hN
    rw [List.map_map]
    have hcomp : (Prod.snd ∘ fun w => (w, (ws.count w : ℚ) / (ws.length : ℚ))) =
        fun w => (ws.count w : ℚ) / (ws.length : ℚ) := rfl
    rw [hcomp, sum_map_div, sum_map_count_rat _ _ (nodup_allKmers k) hsubw,
      div_self hNQ]

/-- C3 witness: one sequence AC with k = 1. -/
theorem C3_witness :
    ∃ r, k_mer_frequencies [['A', 'C']] 1 true = .ok r ∧
      r.length = 4 ^ 1 ∧ (r.map Prod.snd).sum = 1 :=
  C3_kmer_frequencies_complete [['A', 'C']] 1 (by decide) (by decide)
    (by decide) (by decide)

theorem mem_triplets :
    ∀ (s t : List Char), t ∈ triplets s → t.length = 3 ∧ ∀ c ∈ t, c ∈ s
  | a :: b :: c :: rest, t, ht => by
      rw [triplets] at ht
      rcases List.mem_cons.mp ht with rfl | h
      · refine ⟨rfl, ?_⟩
        intro d hd
        rcases List.mem_cons.mp hd with rfl | hd
        · simp
        rcases List.mem_cons.mp hd with rfl | hd
        · simp
        rcases List.mem_cons.mp hd with rfl | hd
        · simp
        · simp at hd
      · obtain ⟨h3, hsub⟩ := mem_triplets rest t h
        refine ⟨h3, fun d hd => ?_⟩
        have := hsub d hd
        simp [this]
  | [], t, ht => by simp [triplets] at ht
  | [a], t, ht => by simp [triplets] at ht
  | [a, b], t, ht => by simp [triplets] at ht

theorem triplets_length_mul :
    ∀ (s : List Char), s.length % 3 = 0 → 3 * (triplets s).length = s.length
  | a :: b :: c :: rest, h => by
      rw [triplets]
      have hr : rest.length % 3 = 0 := by
        simp only [List.length_cons] at h
        omega
      have := triplets_length_mul rest hr
      simp only [List.length_cons]
      omega
  | [], _ => by simp [triplets]
  | [a], h => by simp at h
  | [a, b], h => by simp at h

/-- C4 (amended): `codon_frequencies` fails with `FrameError` on every
sequence whose length is not divisible by 3 and produces no frequency
result there; on every non-empty DNA sequence whose length is divisible
by 3 it returns exactly 64 entries whose values sum to 1. -/
theorem C4_codon_frequencies (s : List Char) :
    (s.length % 3 ≠ 0 → codon_frequencies s = .error "FrameError") ∧
    (s ≠ [] → s.length % 3 = 0 → (∀ c ∈ s, c ∈ dnaAlphabet) →
      ∃ r, codon_frequencies s = .ok r ∧
        r.length = 64 ∧ (r.map Prod.snd).sum = 1) := by
  constructor
  · intro h
    rw [codon_frequencies, if_pos h]
  · intro hne hmod hdna
    rw [codon_frequencies, if_neg (by simp [hmod])]
    refine ⟨_, rfl, ?_, ?_⟩
    · rw [List.length_map, length_allKmers]
      norm_num
    · have hsubt : ∀ t ∈ triplets s, t ∈ allKmers 3 := by
        intro t ht
        obtain ⟨h3, hsub⟩ := mem_triplets s t ht
        exact (mem_allKmers 3 t).mpr ⟨h3, fun c hc => hdna c (hsub c hc)⟩
      have hN : (triplets s).length ≠ 0 := by
        have := triplets_length_mul s hmod
        have hlen : s.length ≠ 0 := by
          intro h0
          exact hne (List.length_eq_zero.mp h0)
        omega
      have hNQ : ((triplets s).length : ℚ) ≠ 0 := Nat.cast_ne_zero.mpr hN
      rw [List.map_map]
      have hcomp : (Prod.snd ∘ fun w =>
          (w, ((triplets s).count w : ℚ) / ((triplets s).length : ℚ))) =
          fun w => ((triplets s).count w : ℚ) / ((triplets s).length : ℚ) := rfl
      rw [hcomp, sum_map_div,
        sum_map_count_rat _ _ (nodup_allKmers 3) hsubt, div_self hNQ]

/-- C4 counterexample: the empty sequence has length divisible by 3, yet
`codon_frequencies` accepts it and returns entries summing to 0, not 1. -/
theorem C4_counterexample :
    ([] : List Char).length % 3 = 0 ∧
    (∃ r, codon_frequencies [] = .ok r ∧ (r.map Prod.snd).sum ≠ 1) := by
  refine ⟨rfl, ?_⟩
  rw [codon_frequencies, if_neg (by simp)]
  refine ⟨_, rfl, ?_⟩
  rw [List.map_map]
  have hz : ((allKmers 3).map (Prod.snd ∘ fun w =>
      (w, ((triplets ([] : List Char)).count w : ℚ) /
        ((triplets ([] : List Char)).length : ℚ)))).sum = 0 := by
    apply List.sum_eq_zero
    intro y hy
    obtain ⟨w, _, rfl⟩ := List.mem_map.mp hy
    show ((triplets ([] : List Char)).count w : ℚ) /
      ((triplets ([] : List Char)).length : ℚ) = 0
    simp [triplets]
  rw [hz]
  norm_num

/-- C4 witness: a length-four sequence is rejected, and the sequence ATG
is accepted with 64 entries summing to 1. -/
theorem C4_witness :
    (codon_frequencies ['A', 'T', 'G', 'C'] = .error "FrameError") ∧
    (∃ r, codon_frequencies ['A', 'T', 'G'] = .ok r ∧
      r.length = 64 ∧ (r.map Prod.snd).sum = 1) :=
  ⟨(C4_codon_frequencies ['A', 'T', 'G', 'C']).1 (by decide),
   (C4_codon_frequencies ['A', 'T', 'G']).2 (by decide) (by decide) (by decide)⟩

/-- Embedded from src/cli.py featurize (lines 32..36): the codon-usage
path checks that every sequence's length is divisible by 3, raising a
ValueError otherwise, and then computes codon frequencies on the
concatenation of all input sequences. -/
def featurize_codon_input (seqs : List (List Char)) : Except String (List Char) :=
  if seqs.any (fun s => s.length % 3 ≠ 0) then
    .error "Cannot calculate codons for sequence whose length is not divisible by 3"
  else .ok seqs.flatten

theorem triplets_append :
    ∀ (s t : List Char), s.length % 3 = 0 →
      triplets (s ++ t) = triplets s ++ triplets t
  | a :: b :: c :: rest, t, h => by
      have hr : rest.length % 3 = 0 := by
        simp only [List.length_cons] at h
        omega
      simp only [List.cons_append, List.append_eq, triplets,
        triplets_append rest t hr]
  | [], t, _ => by simp [triplets]
  | [a], t, h => by simp at h
  | [a, b], t, h => by simp at h

theorem flatten_length_mod3 (seqs : List (List Char))
    (h : ∀ s ∈ seqs, s.length % 3 = 0) : seqs.flatten.length % 3 = 0 := by
  induction seqs with
  | nil => simp
  | cons s rest ih =>
      rw [List.flatten_cons, List.length_append]
      have h1 := h s (by simp)
      have h2 := ih (fun x hx => h x (List.mem_cons_of_mem _ hx))
      omega

theorem triplets_flatten (seqs : List (List Char))
    (h : ∀ s ∈ seqs, s.length % 3 = 0) :
    triplets seqs.flatten = (seqs.map triplets).flatten := by
  induction seqs with
  | nil => simp [triplets]
  | cons s rest ih =>
      rw [List.flatten_cons, triplets_append s rest.flatten (h s (by simp)),
        List.map_cons, List.flatten_cons,
        ih (fun x hx => h x (List.mem_cons_of_mem _ hx))]

/-- C10: in the featurize codon-usage path, codon frequencies are computed
on the concatenation of all input sequences, and because every individual
sequence is first checked to have length divisible by 3, the
concatenation's length is also divisible by 3 and its triplet
decomposition is exactly the concatenation of the per-sequence triplet
decompositions: no counted triplet spans a boundary between two input
sequences and every sequence's reading frame is preserved. -/
theorem C10_featurize_frame_preserved (seqs : List (List Char)) (s : List Char)
    (h : featurize_codon_input seqs = .ok s) :
    s.length % 3 = 0 ∧ triplets s = (seqs.map triplets).flatten := by
  rw [featurize_codon_input] at h
  split at h
  · cases h
  · rename_i hg
    have hall : ∀ x ∈ seqs, x.length % 3 = 0 := by
      intro x hx
      by_contra hx3
      exact hg (List.any_eq_true.mpr ⟨x, hx, by simpa using hx3⟩)
    cases h
    exact ⟨flatten_length_mod3 seqs hall, triplets_flatten seqs hall⟩

/-- C10 witness: two length-3 sequences pass the check and the joint
triplet decomposition splits exactly at their boundary. -/
theorem C10_witness :
    (['A', 'T', 'G', 'C', 'C', 'C'] : List Char).length % 3 = 0 ∧
    triplets ['A', 'T', 'G', 'C', 'C', 'C'] =
      ([['A', 'T', 'G'], ['C', 'C', 'C']].map triplets).flatten :=
  C10_featurize_frame_preserved [['A', 'T', 'G'], ['C', 'C', 'C']]
    ['A', 'T', 'G', 'C', 'C', 'C'] (by rfl)

/-- Python str.replace with an empty replacement and a single-character
pattern removes every occurrence of that character, returning a new
string and leaving the receiver unchanged. -/
def pyReplaceAll (s : List Char) (c : Char) : List Char :=
  s.filter (fun d => d ≠ c)

/-- Embedded from src/cli.py aa, mode seq (lines 54..61): the translated
sequence is tested for a stop symbol and `replace` is called on it, but
the call's result is discarded (a bare statement, not an assignment), so
the value carried forward is the translation itself. -/
def aa_seq_mode (translated : List Char) : List Char :=
  if '*' ∈ translated then
    let _discarded := pyReplaceAll translated '*'
    translated
  else translated

/-- Embedded from src/cli.py aa, mode freq (lines 64..79): the per-record
translations are concatenated, `replace` is called on the concatenation
with its result discarded, and the concatenation itself is what gets
passed to `k_mer_frequencies` with k = 1. -/
def aa_freq_mode_input (translations : List (List Char)) : List Char :=
  let seqs := translations.flatten
  let _discarded := pyReplaceAll seqs '*'
  seqs

theorem mem_kmerWindows_one (s : List Char) (c : Char) (hc : c ∈ s) :
    [c] ∈ kmerWindows 1 s := by
  obtain ⟨i, hi, rfl⟩ := List.mem_iff_getElem.mp hc
  simp only [kmerWindows, List.mem_map, List.mem_range]
  refine ⟨i, by omega, ?_⟩
  rw [List.drop_eq_getElem_cons hi]
  rfl

/-- C8: in the aa operation both `replace` calls discard their return
value, so stop symbols are never removed: mode seq carries the translated
sequence through unchanged (every stop symbol produced by translation
survives), and mode freq passes the raw concatenation of the record
translations to `k_mer_frequencies`, whose observed k-mer table therefore
still contains the stop symbol whenever any translated record contained
one. -/
theorem C8_replace_discarded (t : List Char) (ts : List (List Char)) :
    aa_seq_mode t = t ∧
    aa_freq_mode_input ts = ts.flatten ∧
    ('*' ∈ t → '*' ∈ aa_seq_mode t) ∧
    (∀ u ∈ ts, '*' ∈ u →
      ∃ r, k_mer_frequencies [aa_freq_mode_input ts] 1 false = .ok r ∧
        ['*'] ∈ r.map Prod.fst) := by
  have hseq : aa_seq_mode t = t := by
    rw [aa_seq_mode]
    split <;> rfl
  refine ⟨hseq, rfl, ?_, ?_⟩
  · intro hstar
    rw [hseq]
    exact hstar
  · intro u hu hstar
    have hmem : '*' ∈ ts.flatten := List.mem_flatten.mpr ⟨u, hu, hstar⟩
    have hlen : 1 ≤ ts.flatten.length := by
      cases hflat : ts.flatten with
      | nil => rw [hflat] at hmem; simp at hmem
      | cons a l => simp
    have hguard : ([aa_freq_mode_input ts].any (fun s => s.length < 1)) = false := by
      rw [show aa_freq_mode_input ts = ts.flatten from rfl]
      simp only [List.any_cons, List.any_nil, Bool.or_false,
        decide_eq_false_iff_not, not_lt]
      exact hlen
    rw [k_mer_frequencies, hguard]
    simp only [Bool.false_eq_true, if_false]
    refine ⟨_, rfl, ?_⟩
    rw [List.map_map]
    have hid : (Prod.fst ∘ fun w =>
        (w, ((([aa_freq_mode_input ts].map (kmerWindows 1)).flatten.count w : ℚ) /
          (([aa_freq_mode_input ts].map (kmerWindows 1)).flatten.length : ℚ)))) =
        fun w => w := rfl
    rw [hid, List.map_id']
    rw [List.mem_dedup]
    show ['*'] ∈ ([aa_freq_mode_input ts].map (kmerWindows 1)).flatten
    simp only [List.map_cons, List.map_nil, List.flatten_cons, List.flatten_nil,
      List.append_nil]
    exact mem_kmerWindows_one _ '*' hmem

/-- C8 witness: a single record translating to M followed by a stop. -/
theorem C8_witness :
    '*' ∈ aa_seq_mode ['M', '*'] ∧
    ∃ r, k_mer_frequencies [aa_freq_mode_input [['M', '*']]] 1 false = .ok r ∧
      ['*'] ∈ r.map Prod.fst :=
  ⟨(C8_replace_discarded ['M', '*'] [['M', '*']]).2.2.1 (by decide),
   (C8_replace_discarded ['M', '*'] [['M', '*']]).2.2.2 ['M', '*'] (by decide)
     (by decide)⟩

/-- An observable output action of the generate command. -/
inductive OutputEffect where
  | printed : List Char → OutputEffect
  | wroteFile : String → List Char → OutputEffect

/-- Embedded from src/cli.py generate (lines 113..117): after the core
optimizer returns the optimized sequence, it is printed only under
--verbose and written to a file only when an --output path was given. -/
def generate_output (verbose : Bool) (output : Option String)
    (optimized : List Char) : List OutputEffect :=
  (if verbose then [OutputEffect.printed optimized] else []) ++
    (match output with
     | some path => [OutputEffect.wroteFile path optimized]
     | none => [])

/-- C9: when neither the --output path nor the --verbose flag is
supplied, the optimized sequence returned by the core is neither printed
nor written to any file: the generate command discards the result and
produces no output of the sequence. -/
theorem C9_generate_discards_result (optimized : List Char) :
    generate_output false none optimized = [] := rfl

/-- Modelled from the spec: the profile distance is the sum of squared
differences between matched values over the shared domain of the two
profiles (the match is enforced by the include-missing construction). -/
def distance (dom : Finset (List Char)) (A B : List Char → ℚ) : ℚ :=
  ∑ x ∈ dom, (A x - B x) ^ 2

/-- C6: profile distance is symmetric, the distance from a profile to
itself is exactly 0, and the distance between two profiles over the same
domain is 0 precisely when they are identical on that domain. -/
theorem C6_distance_metric (dom : Finset (List Char)) (A B : List Char → ℚ) :
    distance dom A B = distance dom B A ∧
    distance dom A A = 0 ∧
    (distance dom A B = 0 ↔ ∀ x ∈ dom, A x = B x) := by
  refine ⟨?_, ?_, ?_⟩
  · apply Finset.sum_congr rfl
    intro x _
    ring
  · apply Finset.sum_eq_zero
    intro x _
    ring
  · rw [distance, Finset.sum_eq_zero_iff_of_nonneg (fun x _ => sq_nonneg _)]
    constructor
    · intro h x hx
      have h2 := (pow_eq_zero_iff two_ne_zero).mp (h x hx)
      exact sub_eq_zero.mp h2
    · intro h x hx
      rw [h x hx]
      ring

/-- Modelled from the spec: the elitist champion update, applied once per
generation; the tracked best fitness is replaced only by a strictly
better (lower) one. -/
def championUpdate (champ x : ℚ) : ℚ := if x < champ then x else champ

/-- Modelled from the spec: the champion fitness after n generations,
starting from the initial best fitness c0, where gen n is the best
fitness appearing in generation n's population. -/
def championFitness (gen : Nat → ℚ) (c0 : ℚ) : Nat → ℚ
  | 0 => c0
  | n + 1 => championUpdate (championFitness gen c0 n) (gen n)

/-- C7: across every optimization run the fitness of the tracked
champion is non-increasing from one generation to the next. -/
theorem C7_champion_monotone (gen : Nat → ℚ) (c0 : ℚ) (n : Nat) :
    championFitness gen c0 (n + 1) ≤ championFitness gen c0 n := by
  show championUpdate (championFitness gen c0 n) (gen n) ≤
    championFitness gen c0 n
  rw [championUpdate]
  split
  · exact le_of_lt (by assumption)
  · exact le_rfl

/-- Modelled from the spec: the stopping-rule bookkeeping of one
generation, carrying the count of generations since the last strict
improvement together with the champion fitness. -/
def gaStep (st : Nat × ℚ) (x : ℚ) : Nat × ℚ :=
  if x < st.2 then (0, x) else (st.1 + 1, st.2)

/-- Modelled from the spec: the optimizer's generation loop; it stops as
soon as the number of generations since the last strict improvement
reaches the patience window G, returning the generation index, that
count, and the champion fitness.  The fuel argument only bounds the
recursion depth; that some finite fuel always suffices is the content of
claim C2. -/
def gaLoop (G : Nat) (gen : Nat → ℚ) :
    Nat → Nat → Nat × ℚ → Option (Nat × Nat × ℚ)
  | 0, _, _ => none
  | fuel + 1, t, st =>
      if G ≤ st.1 then some (t, st.1, st.2)
      else gaLoop G gen fuel (t + 1) (gaStep st (gen t))

theorem gaLoop_terminates (G : Nat) (gen : Nat → ℚ) (S : Finset ℚ)
    (hS : ∀ n, gen n ∈ S) (n : Nat) :
    ∀ (st : Nat × ℚ) (t : Nat),
      (S.filter (fun y => y < st.2)).card * (G + 1) + (G + 1 - st.1) < n →
      ∃ out, gaLoop G gen n t st = some out := by
  induction n using Nat.strong_induction_on with
  | _ n ih =>
    intro st t hm
    match n with
    | 0 => omega
    | fuel + 1 =>
      rw [gaLoop]
      by_cases hstop : G ≤ st.1
      · rw [if_pos hstop]
        exact ⟨_, rfl⟩
      · rw [if_neg hstop]
        have hsG : st.1 < G := Nat.lt_of_not_le hstop
        by_cases himp : gen t < st.2
        · have hstep : gaStep st (gen t) = (0, gen t) := by
            rw [gaStep, if_pos himp]
          rw [hstep]
          have hxmem : gen t ∈ S.filter (fun y => y < st.2) :=
            Finset.mem_filter.mpr ⟨hS t, himp⟩
          have hsub : S.filter (fun y => y < gen t) ⊆
              (S.filter (fun y => y < st.2)).erase (gen t) := by
            intro y hy
            obtain ⟨hyS, hyx⟩ := Finset.mem_filter.mp hy
            exact Finset.mem_erase.mpr
              ⟨ne_of_lt hyx, Finset.mem_filter.mpr ⟨hyS, lt_trans hyx himp⟩⟩
          have hcard : (S.filter (fun y => y < gen t)).card + 1 ≤
              (S.filter (fun y => y < st.2)).card := by
            have h1 := Finset.card_le_card hsub
            rw [Finset.card_erase_of_mem hxmem] at h1
            have h2 : 0 < (S.filter (fun y => y < st.2)).card :=
              Finset.card_pos.mpr ⟨gen t, hxmem⟩
            omega
          have hmul : ((S.filter (fun y => y < gen t)).card + 1) * (G + 1) ≤
              (S.filter (fun y => y < st.2)).card * (G + 1) :=
            Nat.mul_le_mul_right _ hcard
          have hdist : ((S.filter (fun y => y < gen t)).card + 1) * (G + 1) =
              (S.filter (fun y => y < gen t)).card * (G + 1) + (G + 1) := by
            ring
          apply ih fuel (Nat.lt_succ_self fuel)
          show (S.filter (fun y => y < gen t)).card * (G + 1) + (G + 1 - 0) <
            fuel
          omega
        · have hstep : gaStep st (gen t) = (st.1 + 1, st.2) := by
            rw [gaStep, if_neg himp]
          rw [hstep]
          apply ih fuel (Nat.lt_succ_self fuel)
          show (S.filter (fun y => y < st.2)).card * (G + 1) +
            (G + 1 - (st.1 + 1)) < fuel
          omega

theorem gaLoop_counter_eq (G : Nat) (gen : Nat → ℚ) :
    ∀ (fuel t : Nat) (st : Nat × ℚ) (out : Nat × Nat × ℚ),
      st.1 ≤ G → gaLoop G gen fuel t st = some out → out.2.1 = G := by
  intro fuel
  induction fuel with
  | zero =>
      intro t st out _ h
      cases h
  | succ fuel ih =>
      intro t st out hs h
      rw [gaLoop] at h
      by_cases hstop : G ≤ st.1
      · rw [if_pos hstop] at h
        cases h
        show st.1 = G
        omega
      · rw [if_neg hstop] at h
        have hs' : (gaStep st (gen t)).1 ≤ G := by
          rw [gaStep]
          split
          · exact Nat.zero_le G
          · show st.1 + 1 ≤ G
            omega
        exact ih (t + 1) (gaStep st (gen t)) out hs' h

/-- C2: for every patience window G and every run whose per-generation
best fitnesses range over some finite set of values, as they must for any
finite population size and protein length since only finitely many
phenotypes and hence fitness values exist, the optimizer loop terminates;
it stops exactly when the number of generations since the last strict
improvement of the best fitness reaches G, so it never runs forever. -/
theorem C2_optimizer_terminates (G : Nat) (gen : Nat → ℚ) (S : Finset ℚ)
    (c0 : ℚ) (hS : ∀ n, gen n ∈ S) :
    ∃ fuel t champ, gaLoop G gen fuel 0 (0, c0) = some (t, G, champ) := by
  obtain ⟨out, hout⟩ := gaLoop_terminates G gen S hS
    ((S.filter (fun y => y < ((0 : Nat), c0).2)).card * (G + 1) +
      (G + 1 - ((0 : Nat), c0).1) + 1) ((0 : Nat), c0) 0 (Nat.lt_succ_self _)
  have hG := gaLoop_counter_eq G gen _ 0 ((0 : Nat), c0) out (Nat.zero_le G) hout
  have hpair : (out.1, G, out.2.2) = out := by rw [← hG]
  exact ⟨_, out.1, out.2.2, by rw [hpair]; exact hout⟩

/-- C2 witness: patience window 2 with a constant fitness stream. -/
theorem C2_witness :
    ∃ fuel t champ,
      gaLoop 2 (fun _ => (1 : ℚ)) fuel 0 (0, (0 : ℚ)) = some (t, 2, champ) :=
  C2_optimizer_terminates 2 (fun _ => 1) {1} 0 (fun _ => by simp)

/-- Modelled from the spec: an Individual is an ordered sequence of codon
choices, one per amino-acid position of the target protein; it encodes
the protein when every choice is a codon (exactly three symbols) drawn
from the synonymous group of that position's amino acid. -/
def Encodes (table : List Char → Char) (protein : List Char)
    (ind : List (List Char)) : Prop :=
  ind.map table = protein ∧ ∀ c ∈ ind, c.length = 3

/-- Modelled from the spec: an Individual's phenotype is the concatenated
DNA string of its codon choices. -/
def phenotype (ind : List (List Char)) : List Char := ind.flatten

/-- Modelled from the spec: translation of a DNA string under a genetic
code partitions it into triplets and maps each through the code. -/
def translate (table : List Char → Char) (dna : List Char) : List Char :=
  (triplets dna).map table

/-- Modelled from the spec: crossover at a codon-boundary cut point, never
inside a codon: the offspring takes the first cut codon choices from one
parent and the remaining choices from the other. -/
def crossoverAt (cut : Nat) (p q : List (List Char)) : List (List Char) :=
  p.take cut ++ q.drop cut

/-- Modelled from the spec: mutation replaces the codon choice at one
position by another codon drawn from the same synonymous group. -/
def mutateAt (pos : Nat) (c : List Char) (ind : List (List Char)) :
    List (List Char) :=
  ind.set pos c

/-- Modelled from the spec: the individuals an optimizer run can ever
hold: those built at initialization by choosing a synonymous codon for
every protein position, and those produced from held individuals by
codon-boundary crossover or synonymous mutation. -/
inductive Produced (table : List Char → Char) (protein : List Char) :
    List (List Char) → Prop
  | init (ind : List (List Char)) (h : Encodes table protein ind) :
      Produced table protein ind
  | crossover (cut : Nat) (p q : List (List Char))
      (hp : Produced table protein p) (hq : Produced table protein q) :
      Produced table protein (crossoverAt cut p q)
  | mutation (pos : Nat) (c : List Char) (ind : List (List Char))
      (hind : Produced table protein ind) (hlen : c.length = 3)
      (hsyn : ∀ h : pos < protein.length, table c = protein[pos]) :
      Produced table protein (mutateAt pos c ind)

theorem set_getElem_self_eq (l : List Char) (n : Nat) (h : n < l.length) :
    l.set n l[n] = l := by
  apply List.ext_getElem
  · simp
  · intro i h1 h2
    rw [List.getElem_set]
    split
    · rename_i heq
      subst heq
      rfl
    · rfl

theorem Produced_encodes (table : List Char → Char) (protein : List Char)
    (ind : List (List Char)) (h : Produced table protein ind) :
    Encodes table protein ind := by
  induction h with
  | init ind h => exact h
  | crossover cut p q hp hq ihp ihq =>
      obtain ⟨hp1, hp2⟩ := ihp
      obtain ⟨hq1, hq2⟩ := ihq
      constructor
      · rw [crossoverAt, List.map_append, List.map_take, List.map_drop,
          hp1, hq1, List.take_append_drop]
      · intro c hc
        rcases List.mem_append.mp hc with hm | hm
        · exact hp2 c (List.mem_of_mem_take hm)
        · exact hq2 c (List.mem_of_mem_drop hm)
  | mutation pos c ind hind hlen hsyn ih =>
      obtain ⟨h1, h2⟩ := ih
      constructor
      · rw [mutateAt, List.map_set, h1]
        by_cases hp : pos < protein.length
        · rw [hsyn hp]
          exact set_getElem_self_eq protein pos hp
        · exact List.set_eq_of_length_le (Nat.le_of_not_lt hp)
      · intro d hd
        rcases List.mem_or_eq_of_mem_set hd with hm | hm
        · exact h2 d hm
        · rw [hm]
          exact hlen

theorem triplets_phenotype (ind : List (List Char))
    (h : ∀ c ∈ ind, c.length = 3) : triplets (phenotype ind) = ind := by
  induction ind with
  | nil => simp [phenotype, triplets]
  | cons c rest ih =>
      have hc := h c (by simp)
      have hr := ih (fun d hd => h d (List.mem_cons_of_mem _ hd))
      obtain ⟨a, b, d, rfl⟩ := List.length_eq_three.mp hc
      rw [phenotype, List.flatten_cons]
      simp only [List.cons_append, List.append_eq, List.nil_append, triplets]
      rw [show rest.flatten = phenotype rest from rfl, hr]

/-- C1: every individual the optimizer can hold — initialized respecting
the synonymous-codon constraint, or produced from held individuals by
codon-boundary crossover or synonymous mutation — has a phenotype that
translates, under the given genetic code, exactly to the target protein;
in particular the DNA string of the best-ever individual returned by the
generate operation does. -/
theorem C1_output_translates_to_protein (table : List Char → Char)
    (protein : List Char) (ind : List (List Char))
    (h : Produced table protein ind) :
    translate table (phenotype ind) = protein := by
  obtain ⟨h1, h2⟩ := Produced_encodes table protein ind h
  rw [translate, triplets_phenotype ind h2, h1]

/-- C1 witness: the single-codon individual ATG for the protein M, then
mutated in place by another synonymous codon and crossed with itself. -/
theorem C1_witness :
    translate (fun c => if c = ['A', 'T', 'G'] then 'M' else 'X')
      (phenotype [['A', 'T', 'G']]) = ['M'] :=
  C1_output_translates_to_protein
    (fun c => if c = ['A', 'T', 'G'] then 'M' else 'X') ['M'] [['A', 'T', 'G']]
    (Produced.init [['A', 'T', 'G']] ⟨by decide, by decide⟩)

/-- Modelled from the spec: the codon table is an external, read-only
collaborator keyed by a genetic-code identifier; this is the
codon-to-amino-acid mapping of NCBI translation table 1, the standard
genetic code, with the stop marker written as the asterisk and non-codon
inputs mapped to a question mark. -/
def standardGeneticCode : List Char → Char
  | ['T', 'T', 'T'] => 'F'
  | ['T', 'T', 'C'] => 'F'
  | ['T', 'T', 'A'] => 'L'
  | ['T', 'T', 'G'] => 'L'
  | ['C', 'T', 'T'] => 'L'
  | ['C', 'T', 'C'] => 'L'
  | ['C', 'T', 'A'] => 'L'
  | ['C', 'T', 'G'] => 'L'
  | ['A', 'T', 'T'] => 'I'
  | ['A', 'T', 'C'] => 'I'
  | ['A', 'T', 'A'] => 'I'
  | ['A', 'T', 'G'] => 'M'
  | ['G', 'T', 'T'] => 'V'
  | ['G', 'T', 'C'] => 'V'
  | ['G', 'T', 'A'] => 'V'
  | ['G', 'T', 'G'] => 'V'
  | ['T', 'C', 'T'] => 'S'
  | ['T', 'C', 'C'] => 'S'
  | ['T', 'C', 'A'] => 'S'
  | ['T', 'C', 'G'] => 'S'
  | ['C', 'C', 'T'] => 'P'
  | ['C', 'C', 'C'] => 'P'
  | ['C', 'C', 'A'] => 'P'
  | ['C', 'C', 'G'] => 'P'
  | ['A', 'C', 'T'] => 'T'
  | ['A', 'C', 'C'] => 'T'
  | ['A', 'C', 'A'] => 'T'
  | ['A', 'C', 'G'] => 'T'
  | ['G', 'C', 'T'] => 'A'
  | ['G', 'C', 'C'] => 'A'
  | ['G', 'C', 'A'] => 'A'
  | ['G', 'C', 'G'] => 'A'
  | ['T', 'A', 'T'] => 'Y'
  | ['T', 'A', 'C'] => 'Y'
  | ['T', 'A', 'A'] => '*'
  | ['T', 'A', 'G'] => '*'
  | ['C', 'A', 'T'] => 'H'
  | ['C', 'A', 'C'] => 'H'
  | ['C', 'A', 'A'] => 'Q'
  | ['C', 'A', 'G'] => 'Q'
  | ['A', 'A', 'T'] => 'N'
  | ['A', 'A', 'C'] => 'N'
  | ['A', 'A', 'A'] => 'K'
  | ['A', 'A', 'G'] => 'K'
  | ['G', 'A', 'T'] => 'D'
  | ['G', 'A', 'C'] => 'D'
  | ['G', 'A', 'A'] => 'E'
  | ['G', 'A', 'G'] => 'E'
  | ['T', 'G', 'T'] => 'C'
  | ['T', 'G', 'C'] => 'C'
  | ['T', 'G', 'A'] => '*'
  | ['T', 'G', 'G'] => 'W'
  | ['C', 'G', 'T'] => 'R'
  | ['C', 'G', 'C'] => 'R'
  | ['C', 'G', 'A'] => 'R'
  | ['C', 'G', 'G'] => 'R'
  | ['A', 'G', 'T'] => 'S'
  | ['A', 'G', 'C'] => 'S'
  | ['A', 'G', 'A'] => 'R'
  | ['A', 'G', 'G'] => 'R'
  | ['G', 'G', 'T'] => 'G'
  | ['G', 'G', 'C'] => 'G'
  | ['G', 'G', 'A'] => 'G'
  | ['G', 'G', 'G'] => 'G'
  | _ => '?'

/-- Modelled from the spec: the codon-to-amino-acid mapping of NCBI
translation table 11, the bacterial, archaeal and plant plastid code —
the table selected by identifier 11, which src/cli.py documents as "the
standard genetic code"; it differs from table 1 only in its set of
alternative start codons, which plain translation does not use. -/
def geneticCode11 : List Char → Char
  | ['T', 'T', 'T'] => 'F'
  | ['T', 'T', 'C'] => 'F'
  | ['T', 'T', 'A'] => 'L'
  | ['T', 'T', 'G'] => 'L'
  | ['C', 'T', 'T'] => 'L'
  | ['C', 'T', 'C'] => 'L'
  | ['C', 'T', 'A'] => 'L'
  | ['C', 'T', 'G'] => 'L'
  | ['A', 'T', 'T'] => 'I'
  | ['A', 'T', 'C'] => 'I'
  | ['A', 'T', 'A'] => 'I'
  | ['A', 'T', 'G'] => 'M'
  | ['G', 'T', 'T'] => 'V'
  | ['G', 'T', 'C'] => 'V'
  | ['G', 'T', 'A'] => 'V'
  | ['G', 'T', 'G'] => 'V'
  | ['T', 'C', 'T'] => 'S'
  | ['T', 'C', 'C'] => 'S'
  | ['T', 'C', 'A'] => 'S'
  | ['T', 'C', 'G'] => 'S'
  | ['C', 'C', 'T'] => 'P'
  | ['C', 'C', 'C'] => 'P'
  | ['C', 'C', 'A'] => 'P'
  | ['C', 'C', 'G'] => 'P'
  | ['A', 'C', 'T'] => 'T'
  | ['A', 'C', 'C'] => 'T'
  | ['A', 'C', 'A'] => 'T'
  | ['A', 'C', 'G'] => 'T'
  | ['G', 'C', 'T'] => 'A'
  | ['G', 'C', 'C'] => 'A'
  | ['G', 'C', 'A'] => 'A'
  | ['G', 'C', 'G'] => 'A'
  | ['T', 'A', 'T'] => 'Y'
  | ['T', 'A', 'C'] => 'Y'
  | ['T', 'A', 'A'] => '*'
  | ['T', 'A', 'G'] => '*'
  | ['C', 'A', 'T'] => 'H'
  | ['C', 'A', 'C'] => 'H'
  | ['C', 'A', 'A'] => 'Q'
  | ['C', 'A', 'G'] => 'Q'
  | ['A', 'A', 'T'] => 'N'
  | ['A', 'A', 'C'] => 'N'
  | ['A', 'A', 'A'] => 'K'
  | ['A', 'A', 'G'] => 'K'
  | ['G', 'A', 'T'] => 'D'
  | ['G', 'A', 'C'] => 'D'
  | ['G', 'A', 'A'] => 'E'
  | ['G', 'A', 'G'] => 'E'
  | ['T', 'G', 'T'] => 'C'
  | ['T', 'G', 'C'] => 'C'
  | ['T', 'G', 'A'] => '*'
  | ['T', 'G', 'G'] => 'W'
  | ['C', 'G', 'T'] => 'R'
  | ['C', 'G', 'C'] => 'R'
  | ['C', 'G', 'A'] => 'R'
  | ['C', 'G', 'G'] => 'R'
  | ['A', 'G', 'T'] => 'S'
  | ['A', 'G', 'C'] => 'S'
  | ['A', 'G', 'A'] => 'R'
  | ['A', 'G', 'G'] => 'R'
  | ['G', 'G', 'T'] => 'G'
  | ['G', 'G', 'C'] => 'G'
  | ['G', 'G', 'A'] => 'G'
  | ['G', 'G', 'G'] => 'G'
  | _ => '?'

/-- Embedded from src/cli.py line 102: the generate command's
--trans-table option defaults to 11. -/
def generate_trans_table_default : Nat := 11

/-- Embedded from src/cli.py line 46: the aa command's --trans-table
option defaults to 11. -/
def aa_trans_table_default : Nat := 11

/-- C5: when the optimizer (and the aa command) is invoked without an
explicit genetic-code identifier, the identifier used defaults to 11,
whose codon-to-amino-acid table agrees with the standard genetic code
(NCBI table 1) on all 64 codons, so translation defaults to the standard
genetic code. -/
theorem C5_default_genetic_code :
    generate_trans_table_default = 11 ∧ aa_trans_table_default = 11 ∧
    ∀ c ∈ allKmers 3, geneticCode11 c = standardGeneticCode c :=
  ⟨rfl, rfl, by decide⟩

/-- C5 witness: the two tables agree on the codon ATG. -/
theorem C5_witness :
    geneticCode11 ['A', 'T', 'G'] = standardGeneticCode ['A', 'T', 'G'] :=
  C5_default_genetic_code.2.2 ['A', 'T', 'G'] (by decide)

/-- C6 witness: a concrete pair of one-key profiles. -/
theorem C6_witness :
    distance {['A']} (fun _ => (0 : ℚ)) (fun _ => 1) =
      distance {['A']} (fun _ => 1) (fun _ => (0 : ℚ)) ∧
    distance {['A']} (fun _ => (0 : ℚ)) (fun _ => (0 : ℚ)) = 0 :=
  ⟨(C6_distance_metric {['A']} (fun _ => 0) (fun _ => 1)).1,
   (C6_distance_metric {['A']} (fun _ => 0) (fun _ => 0)).2.1⟩

/-- C7 witness: one generation step of a concrete run. -/
theorem C7_witness :
    championFitness (fun _ => (1 : ℚ)) 2 1 ≤ championFitness (fun _ => (1 : ℚ)) 2 0 :=
  C7_champion_monotone (fun _ => 1) 2 0

end Freqgen
